import Mathlib

/-
Verification of the karma_calculator coordinator (src/server.rs) and circuit
evaluator (src/circuit.rs) against its natural-language specification.

Shallow embedding conventions:
* FHE ciphertexts are modelled by their plaintext semantics: an `FheUint8`
  is a `Nat` holding an 8-bit value, homomorphic `+`/`-` are arithmetic
  modulo 256, and the preprocessing pipeline `unseed`/`key_switch`/
  `extract_all` is the identity on the plaintext vector.  A batched cipher
  (`SeededBatchedFheUint8`) is the list of 8-bit amounts it encrypts.
* A Rust panic (out-of-bounds index, `expect` on `None`) is modelled by the
  handler returning `none`; a returned response is `some`.
* The three pieces of rocket-managed state in `server.rs` (`UserList`,
  `ServerStorage`, `ServerStatus`) are bundled into one `ServerState`
  record; each HTTP handler becomes a function from `ServerState` to a
  response together with the successor state.  The random `seed` field is
  irrelevant to every claim and is omitted.
-/

namespace KarmaCalc

/-- 8-bit wraparound addition: the plaintext semantics of `FheUint8 + FheUint8`. -/
def add8 (a b : Nat) : Nat := (a + b) % 256

/-- 8-bit wraparound subtraction: the plaintext semantics of `FheUint8 - FheUint8`. -/
def sub8 (a b : Nat) : Nat := (a % 256 + (256 - b % 256)) % 256

/-- `type Cipher = SeededBatchedFheUint8<...>` (src/types.rs): modelled by the
plaintext vector of 8-bit amounts it encrypts. -/
abbrev Cipher := List Nat

/-- `type ServerKeyShare = ...` (src/types.rs): opaque key material, irrelevant
to the plaintext semantics. -/
abbrev ServerKeyShare := Unit

/-- `type DecryptionShare = Vec<u64>` (src/types.rs). -/
abbrev DecryptionShare := List Nat

/-- `enum UserStatus` from src/server.rs. -/
inductive UserStatus where
  | IDAcquired
  | CipherSubmitted
  | DecryptionShareSubmitted
deriving DecidableEq

/-- `struct RegisteredUser` from src/server.rs. -/
structure RegisteredUser where
  id : Nat
  name : String
  status : UserStatus
deriving DecidableEq

/-- `sum_fhe_dyn` from src/circuit.rs: `reduce(|a, b| &a + &b)` folds the
homomorphic addition from the first element; `.expect(...)` panics on an
empty input, modelled by `none`. -/
def sum_fhe_dyn (receving_karmas : List Nat) : Option Nat :=
  match receving_karmas with
  | [] => none
  | x :: xs => some (xs.foldl add8 x)

/-- Option-valued map that stops at the first failure; models a Rust loop
whose body can panic (the panic aborts the whole computation). -/
def mapOptionList (f : α → Option β) : List α → Option (List β)
  | [] => some []
  | a :: rest =>
    match f a with
    | none => none
    | some b => (mapOptionList f rest).map (fun bs => b :: bs)

/-- The `received` collection in `evaluate_circuit`:
`ciphers.iter().map(|enc| enc[my_id].clone())`, where `enc[my_id]` panics if
the row is too short. -/
def collectRow (ciphers : List (List Nat)) (my_id : Nat) : Option (List Nat) :=
  match ciphers with
  | [] => some []
  | c :: rest =>
    (c.get? my_id).bind (fun v => (collectRow rest my_id).map (fun vs => v :: vs))

/-- The body of the `par_iter` closure in `evaluate_circuit` for participant
`my_id`: sum the full own row as `sent`, sum column `my_id` over all rows as
`received`, return `received - sent` under 8-bit wraparound. -/
def evalAt (ciphers : List (List Nat)) (my_id : Nat) : Option Nat := do
  let row ← ciphers.get? my_id
  let sent ← sum_fhe_dyn row
  let received ← collectRow ciphers my_id
  let receivedSum ← sum_fhe_dyn received
  pure (sub8 receivedSum sent)

/-- `derive_server_key` from src/circuit.rs: aggregates the key shares and
installs the global server key.  The key material is external FHE capability
state with no plaintext content, so the model is a no-op. -/
def derive_server_key (_server_key_shares : List ServerKeyShare) : Unit := ()

/-- `evaluate_circuit` from src/circuit.rs.  The preprocessing
(`unseed`/`key_switch(user_id)`/`extract_all`) is the identity on the
plaintext row, so `ciphers` is the list of submitted rows; `rayon`'s
`collect_into_vec` keeps index order, so the parallel loop is the ordered
map over participant indices. -/
def evaluate_circuit (users : List (Cipher × RegisteredUser)) : Option (List Nat) :=
  let ciphers := users.map (fun u => u.1)
  mapOptionList (evalAt ciphers) (List.range users.length)

/-- `enum ServerStatus` from src/server.rs (the authoritative file): only
three statuses, with no `ReadyForJoining`/`ReadyForInputs`/`ReadyForRunning`. -/
inductive ServerStatus where
  | Waiting
  | RunningFhe
  | CompletedFhe
deriving DecidableEq

/-- `enum UserStorage` from src/server.rs. -/
inductive UserStorage where
  | Empty
  | CipherSks (cipher : Cipher) (sks : ServerKeyShare)
  | DecryptionShare (ds : Option (List DecryptionShare))
deriving DecidableEq

/-- The whole rocket-managed mutable state of src/server.rs: the `UserList`,
the `ServerStorage` (seed omitted) and the `ServerStatus`. -/
structure ServerState where
  users : List RegisteredUser
  ssUsers : List UserStorage
  fheOutputs : List Nat
  status : ServerStatus
deriving DecidableEq

/-- `pub const TOTAL_USERS: usize = 3` from src/server.rs. -/
def TOTAL_USERS : Nat := 3

/-- The state installed by `rocket()`:
`UserList::new(vec![])`, `ServerStorage::new(seed)` (three `Empty` slots),
`MutexServerStatus::new(ServerStatus::Waiting)`. -/
def initialState : ServerState :=
  { users := []
    ssUsers := [UserStorage.Empty, UserStorage.Empty, UserStorage.Empty]
    fheOutputs := []
    status := ServerStatus.Waiting }

/-- The `ServerResponse` values produced by src/server.rs, one constructor per
`ServerResponse` smart constructor (the formatted message text is determined
by the constructor and its arguments). -/
inductive Resp where
  | ok_user (user_id : Nat)
  | err_unregistered_user (user_id : Nat)
  | err_unregistered_users (user_len : Nat)
  | err_run_in_progress
  | ok_run_already_end
  | err_missing_submission (user_id : Nat)
  | err_output_not_ready
  | err_decryption_share_not_found (output_id : Nat) (user_id : Nat)
  | ok_fhe_complete
deriving DecidableEq

/-- The `ok` field of the corresponding `ServerResponse`. -/
def Resp.isOk : Resp → Bool
  | .ok_user _ => true
  | .ok_run_already_end => true
  | .ok_fhe_complete => true
  | _ => false

/-- `RegistrationOut` from src/server.rs. -/
structure RegistrationOut where
  name : String
  user_id : Nat
deriving DecidableEq

/-- `register` handler from src/server.rs: no phase check of any kind; always
assigns `user_id = users.len()`, appends the participant and succeeds. -/
def register (name : String) (s : ServerState) : RegistrationOut × ServerState :=
  let user_id := s.users.length
  let user : RegisteredUser := { id := user_id, name := name, status := UserStatus.IDAcquired }
  ({ name := name, user_id := user_id }, { s with users := s.users ++ [user] })

/-- `CipherSubmission` from src/server.rs. -/
structure CipherSubmission where
  user_id : Nat
  cipher_text : Cipher
  sks : ServerKeyShare
deriving DecidableEq

/-- `submit` handler from src/server.rs: rejects `users.len() <= user_id`
with `err_unregistered_user`; otherwise writes the slot
`ss.users[user_id] = CipherSks(..)` unconditionally (panicking — `none` —
when `user_id` is outside the fixed slot vector) and marks the user
`CipherSubmitted`.  It does not read or write the `ServerStatus`. -/
def submit (sub : CipherSubmission) (s : ServerState) : Option (Resp × ServerState) :=
  if s.users.length ≤ sub.user_id then
    some (Resp.err_unregistered_user sub.user_id, s)
  else
    match s.ssUsers.get? sub.user_id with
    | none => none
    | some _ =>
      match s.users.get? sub.user_id with
      | none => none
      | some u =>
        some (Resp.ok_user sub.user_id,
          { s with
            ssUsers := s.ssUsers.set sub.user_id (UserStorage.CipherSks sub.cipher_text sub.sks)
            users := s.users.set sub.user_id { u with status := UserStatus.CipherSubmitted } })

/-- The drain loop of `run` (src/server.rs lines 279-288): walk the
registered users in id order; for each, read `ss.users[user_id]`
(panicking — `none` — if out of bounds); a `CipherSks` slot is replaced in
place by `DecryptionShare(None)` and its cipher collected; the first slot in
any other state aborts with that `user_id`, leaving the slots mutated so
far. -/
def drainSlots : List RegisteredUser → Nat → List UserStorage → List (Cipher × RegisteredUser) →
    Option (Sum (Nat × List UserStorage) (List (Cipher × RegisteredUser) × List UserStorage))
  | [], _, slots, acc => some (Sum.inr (acc, slots))
  | u :: rest, i, slots, acc =>
    match slots.get? i with
    | none => none
    | some (UserStorage.CipherSks cipher _sks) =>
      drainSlots rest (i + 1) (slots.set i (UserStorage.DecryptionShare none))
        (acc ++ [(cipher, u)])
    | some _ => some (Sum.inl (i, slots))

/-- `run` handler from src/server.rs.  In `Waiting` it flips the status to
`RunningFhe`, checks `users.len() < TOTAL_USERS` (rolling back to `Waiting`
on failure), drains the slots (rolling back to `Waiting` when a submission
is missing), then synchronously — still inside the handler — derives the
server key, evaluates the circuit, installs the outputs and sets
`CompletedFhe`.  In `RunningFhe` it returns `err_run_in_progress`; in
`CompletedFhe` it returns `ok_run_already_end`. -/
def run (s : ServerState) : Option (Resp × ServerState) :=
  match s.status with
  | ServerStatus.RunningFhe => some (Resp.err_run_in_progress, s)
  | ServerStatus.CompletedFhe => some (Resp.ok_run_already_end, s)
  | ServerStatus.Waiting =>
    let s1 : ServerState := { s with status := ServerStatus.RunningFhe }
    if s1.users.length < TOTAL_USERS then
      some (Resp.err_unregistered_users s1.users.length, { s1 with status := ServerStatus.Waiting })
    else
      match drainSlots s1.users 0 s1.ssUsers [] with
      | none => none
      | some (Sum.inl (uid, slots1)) =>
        some (Resp.err_missing_submission uid,
          { s1 with ssUsers := slots1, status := ServerStatus.Waiting })
      | some (Sum.inr (ciphers, slots1)) =>
        match evaluate_circuit ciphers with
        | none => none
        | some outs =>
          some (Resp.ok_fhe_complete,
            { s1 with ssUsers := slots1, fheOutputs := outs, status := ServerStatus.CompletedFhe })

/-- `get_fhe_output` handler from src/server.rs: succeeds with the stored
outputs iff `fhe_outputs` is non-empty; the status is not consulted. -/
def get_fhe_output (s : ServerState) : Except Resp (List Nat) :=
  if s.fheOutputs.isEmpty then Except.error Resp.err_output_not_ready
  else Except.ok s.fheOutputs

/-- `DecryptionShareSubmission` from src/server.rs. -/
structure DecryptionShareSubmission where
  user_id : Nat
  decryption_shares : List DecryptionShare
deriving DecidableEq

/-- `submit_decryption_shares` handler from src/server.rs: reads
`ss.users[user_id]` (panicking — `none` — if out of bounds); a slot not yet
in the `DecryptionShare` state yields `err_output_not_ready`; otherwise the
inner option is overwritten with `Some(shares)` and the user is marked
`DecryptionShareSubmitted` (`users[user_id]` panicking if out of bounds). -/
def submit_decryption_shares (sub : DecryptionShareSubmission) (s : ServerState) :
    Option (Resp × ServerState) :=
  match s.ssUsers.get? sub.user_id with
  | none => none
  | some (UserStorage.DecryptionShare _) =>
    match s.users.get? sub.user_id with
    | none => none
    | some u =>
      some (Resp.ok_user sub.user_id,
        { s with
          ssUsers := s.ssUsers.set sub.user_id
            (UserStorage.DecryptionShare (some sub.decryption_shares))
          users := s.users.set sub.user_id { u with status := UserStatus.DecryptionShareSubmitted } })
  | some _ => some (Resp.err_output_not_ready, s)

/-- `get_decryption_share` handler from src/server.rs: reads
`ss.users[user_id]` (panicking — `none` — if out of bounds); a slot not in
the `DecryptionShare` state yields `err_output_not_ready`; an unfilled
`DecryptionShare(None)` slot yields `err_decryption_share_not_found`; a
filled slot returns `decryption_shares[fhe_output_id]` (panicking if out of
bounds).  The state is not modified. -/
def get_decryption_share (fhe_output_id : Nat) (user_id : Nat) (s : ServerState) :
    Option (Except Resp DecryptionShare) :=
  match s.ssUsers.get? user_id with
  | none => none
  | some (UserStorage.DecryptionShare (some shares)) =>
    match shares.get? fhe_output_id with
    | none => none
    | some share => some (Except.ok share)
  | some (UserStorage.DecryptionShare none) =>
    some (Except.error (Resp.err_decryption_share_not_found fhe_output_id user_id))
  | some _ => some (Except.error Resp.err_output_not_ready)

/-- The states reachable from `initialState` through the state-mutating
handlers (the two read-only handlers never change the state); a panicking
call (`none`) has no successor state. -/
inductive Reachable : ServerState → Prop where
  | init : Reachable initialState
  | step_register (s : ServerState) (name : String) :
      Reachable s → Reachable (register name s).2
  | step_submit (s s' : ServerState) (sub : CipherSubmission) (r : Resp) :
      Reachable s → submit sub s = some (r, s') → Reachable s'
  | step_run (s s' : ServerState) (r : Resp) :
      Reachable s → run s = some (r, s') → Reachable s'
  | step_shares (s s' : ServerState) (sub : DecryptionShareSubmission) (r : Resp) :
      Reachable s → submit_decryption_shares sub s = some (r, s') → Reachable s'

/-- Spec-side definition (§4.3 of the spec): total karma received by
participant `i`, the sum over all participants of the amount they allocated
to `i` (self-allocation included). -/
def spec_received_total (rows : List (List Nat)) (i : Nat) : Nat :=
  (rows.map (fun r => r.getD i 0)).sum

/-- Spec-side definition (§4.3 of the spec): total karma given away by
participant `i`, the sum of `i`'s full row (self-allocation included). -/
def spec_sent_total (rows : List (List Nat)) (i : Nat) : Nat :=
  (rows.getD i []).sum

lemma foldl_add8_eq (xs : List Nat) : ∀ x : Nat, x < 256 → xs.foldl add8 x = (x + xs.sum) % 256 := by
  induction xs with
  | nil =>
    intro x hx
    simp [Nat.mod_eq_of_lt hx]
  | cons y ys ih =>
    intro x hx
    have h2 : add8 x y < 256 := Nat.mod_lt _ (by omega)
    have h3 : ys.foldl add8 (add8 x y) = (add8 x y + ys.sum) % 256 := ih _ h2
    rw [List.foldl_cons, h3, List.sum_cons]
    simp only [add8]
    omega

lemma sum_fhe_dyn_eq (xs : List Nat) (hne : xs ≠ []) (hx : ∀ y ∈ xs, y < 256) :
    sum_fhe_dyn xs = some (xs.sum % 256) := by
  cases xs with
  | nil => cases hne rfl
  | cons x ys =>
    have hxlt : x < 256 := hx x (by simp)
    simp [sum_fhe_dyn, foldl_add8_eq ys x hxlt]

lemma mapOptionList_eq_map (f : α → Option β) (g : α → β) (l : List α)
    (h : ∀ a ∈ l, f a = some (g a)) : mapOptionList f l = some (l.map g) := by
  induction l with
  | nil => rfl
  | cons a rest ih =>
    have ha : f a = some (g a) := h a (by simp)
    have hrest : mapOptionList f rest = some (rest.map g) := ih (fun b hb => h b (by simp [hb]))
    simp [mapOptionList, ha, hrest]

lemma mapOptionList_length (f : α → Option β) (l : List α) (ys : List β)
    (h : mapOptionList f l = some ys) : ys.length = l.length := by
  induction l generalizing ys with
  | nil =>
    simp only [mapOptionList, Option.some.injEq] at h
    simp [← h]
  | cons a rest ih =>
    simp only [mapOptionList] at h
    cases hfa : f a with
    | none => rw [hfa] at h; cases h
    | some b =>
      rw [hfa] at h
      cases hrest : mapOptionList f rest with
      | none => rw [hrest] at h; cases h
      | some bs =>
        rw [hrest] at h
        simp only [Option.map_some', Option.some.injEq] at h
        subst h
        simp [ih bs hrest]

lemma get?_eq_some_getD (l : List α) (i : Nat) (d : α) (h : i < l.length) :
    l.get? i = some (l.getD i d) := by
  rw [List.get?_eq_getElem?, List.getD_eq_getElem?_getD, List.getElem?_eq_getElem h]
  rfl

lemma collectRow_eq (ciphers : List (List Nat)) (i : Nat)
    (h : ∀ c ∈ ciphers, i < c.length) :
    collectRow ciphers i = some (ciphers.map (fun c => c.getD i 0)) := by
  induction ciphers with
  | nil => rfl
  | cons c rest ih =>
    have hc : i < c.length := h c (by simp)
    have hget : c.get? i = some (c.getD i 0) := get?_eq_some_getD c i 0 hc
    have hrest : collectRow rest i = some (rest.map (fun c => c.getD i 0)) :=
      ih (fun d hd => h d (by simp [hd]))
    simp only [collectRow, hget, hrest, Option.some_bind, Option.map_some', List.map_cons]

lemma sub8_emod (R S : Nat) :
    sub8 (R % 256) (S % 256) = Int.toNat (((R : Int) - (S : Int)) % 256) := by
  unfold sub8
  omega

lemma getD_mem_of_lt (l : List α) (i : Nat) (d : α) (h : i < l.length) : l.getD i d ∈ l := by
  rw [List.getD_eq_getElem?_getD, List.getElem?_eq_getElem h]
  exact List.getElem_mem h

lemma evalAt_eq (rows : List (List Nat)) (i : Nat)
    (hlen : ∀ r ∈ rows, r.length = rows.length)
    (hval : ∀ r ∈ rows, ∀ x ∈ r, x < 256)
    (hi : i < rows.length) :
    evalAt rows i =
      some (Int.toNat
        (((spec_received_total rows i : Int) - (spec_sent_total rows i : Int)) % 256)) := by
  have hrowget : rows.get? i = some (rows.getD i []) := get?_eq_some_getD rows i [] hi
  have hrowmem : rows.getD i [] ∈ rows := getD_mem_of_lt rows i [] hi
  have hrowne : rows.getD i [] ≠ [] := by
    have := hlen _ hrowmem
    intro hcontra
    rw [hcontra] at this
    simp at this
    omega
  have hsent : sum_fhe_dyn (rows.getD i []) = some ((rows.getD i []).sum % 256) :=
    sum_fhe_dyn_eq _ hrowne (hval _ hrowmem)
  have hcollect : collectRow rows i = some (rows.map (fun c => c.getD i 0)) :=
    collectRow_eq rows i (fun c hc => by rw [hlen c hc]; exact hi)
  have hrecvne : rows.map (fun c => c.getD i 0) ≠ [] := by
    intro hcontra
    rw [List.map_eq_nil_iff] at hcontra
    rw [hcontra] at hi
    simp at hi
  have hrecvval : ∀ y ∈ rows.map (fun c => c.getD i 0), y < 256 := by
    intro y hy
    rw [List.mem_map] at hy
    obtain ⟨c, hc, rfl⟩ := hy
    have hic : i < c.length := by rw [hlen c hc]; exact hi
    exact hval c hc _ (getD_mem_of_lt c i 0 hic)
  have hrecv : sum_fhe_dyn (rows.map (fun c => c.getD i 0)) =
      some ((rows.map (fun c => c.getD i 0)).sum % 256) :=
    sum_fhe_dyn_eq _ hrecvne hrecvval
  simp only [evalAt, hrowget, hsent, hcollect, hrecv, Option.bind_eq_bind, Option.some_bind]
  rw [sub8_emod]
  rfl

/-- Claim C1: for every list of N submitted (ciphertext, participant) pairs in
which each ciphertext encodes a row of N 8-bit amounts, `evaluate_circuit`
returns exactly N output ciphertexts, and output `i` decrypts to
(sum over all participants j of the amount j allocated to i) minus
(sum over all recipients k of the amount i allocated to k), under unsigned
8-bit wraparound arithmetic; the self-allocations appear in both sums and
cancel. -/
theorem C1_circuit_net_balance (users : List (Cipher × RegisteredUser))
    (hlen : ∀ p ∈ users, p.1.length = users.length)
    (hval : ∀ p ∈ users, ∀ x ∈ p.1, x < 256) :
    ∃ outs, evaluate_circuit users = some outs ∧ outs.length = users.length ∧
      ∀ i, i < users.length →
        outs.get? i = some (Int.toNat
          (((spec_received_total (users.map (fun p => p.1)) i : Int) -
            (spec_sent_total (users.map (fun p => p.1)) i : Int)) % 256)) := by
  have hrowslen : (users.map (fun p => p.1)).length = users.length := by simp
  have hlen' : ∀ r ∈ users.map (fun p => p.1), r.length = (users.map (fun p => p.1)).length := by
    intro r hr
    rw [List.mem_map] at hr
    obtain ⟨p, hp, rfl⟩ := hr
    rw [hrowslen]
    exact hlen p hp
  have hval' : ∀ r ∈ users.map (fun p => p.1), ∀ x ∈ r, x < 256 := by
    intro r hr
    rw [List.mem_map] at hr
    obtain ⟨p, hp, rfl⟩ := hr
    exact hval p hp
  have heval : ∀ i ∈ List.range users.length,
      evalAt (users.map (fun p => p.1)) i =
        some (Int.toNat
          (((spec_received_total (users.map (fun p => p.1)) i : Int) -
            (spec_sent_total (users.map (fun p => p.1)) i : Int)) % 256)) := by
    intro i hi
    rw [List.mem_range] at hi
    exact evalAt_eq _ i hlen' hval' (by rw [hrowslen]; exact hi)
  have hmain := mapOptionList_eq_map (evalAt (users.map (fun p => p.1)))
    (fun i => Int.toNat
      (((spec_received_total (users.map (fun p => p.1)) i : Int) -
        (spec_sent_total (users.map (fun p => p.1)) i : Int)) % 256))
    (List.range users.length) heval
  refine ⟨_, hmain, by simp, ?_⟩
  intro i hi
  rw [List.get?_eq_getElem?, List.getElem?_map, List.getElem?_range hi]
  rfl

def uBarryName : String := "Barry"
def uJustinName : String := "Justin"
def uBrianName : String := "Brian"

def uBarry : RegisteredUser := { id := 0, name := uBarryName, status := UserStatus.CipherSubmitted }
def uJustin : RegisteredUser := { id := 1, name := uJustinName, status := UserStatus.CipherSubmitted }
def uBrian : RegisteredUser := { id := 2, name := uBrianName, status := UserStatus.CipherSubmitted }

/-- The N = 3 karma ledger from the spec's end-to-end scenario: rows
`[0,2,4]`, `[1,0,1]`, `[1,1,0]`. -/
def demoLedger : List (Cipher × RegisteredUser) :=
  [([0, 2, 4], uBarry), ([1, 0, 1], uJustin), ([1, 1, 0], uBrian)]

/-- Witness for C1 at the spec's concrete N = 3 ledger; the outputs are
`[-4 mod 256, 1, 3] = [252, 1, 3]`. -/
theorem C1_circuit_net_balance_witness :
    (∀ p ∈ demoLedger, p.1.length = demoLedger.length) ∧
    (∃ outs, evaluate_circuit demoLedger = some outs ∧ outs.length = demoLedger.length ∧
      ∀ i, i < demoLedger.length →
        outs.get? i = some (Int.toNat
          (((spec_received_total (demoLedger.map (fun p => p.1)) i : Int) -
            (spec_sent_total (demoLedger.map (fun p => p.1)) i : Int)) % 256))) ∧
    evaluate_circuit demoLedger = some [252, 1, 3] :=
  ⟨by decide, C1_circuit_net_balance demoLedger (by decide) (by decide), by rfl⟩

lemma evaluate_circuit_length (us : List (Cipher × RegisteredUser)) (outs : List Nat)
    (h : evaluate_circuit us = some outs) : outs.length = us.length := by
  unfold evaluate_circuit at h
  have := mapOptionList_length _ _ _ h
  simpa using this

lemma drainSlots_inl_length (us : List RegisteredUser) :
    ∀ (i : Nat) (slots : List UserStorage) (acc : List (Cipher × RegisteredUser))
      (uid : Nat) (slots' : List UserStorage),
      drainSlots us i slots acc = some (Sum.inl (uid, slots')) → slots'.length = slots.length := by
  induction us with
  | nil =>
    intro i slots acc uid slots' h
    simp [drainSlots] at h
  | cons u rest ih =>
    intro i slots acc uid slots' h
    simp only [drainSlots] at h
    cases hslot : slots.get? i with
    | none => rw [hslot] at h; cases h
    | some st =>
      rw [hslot] at h
      cases st with
      | Empty => simp at h; obtain ⟨-, rfl⟩ := h; rfl
      | CipherSks c k =>
        have := ih (i + 1) (slots.set i (UserStorage.DecryptionShare none))
          (acc ++ [(c, u)]) uid slots' h
        simpa using this
      | DecryptionShare ds => simp at h; obtain ⟨-, rfl⟩ := h; rfl

lemma drainSlots_inr_facts (us : List RegisteredUser) :
    ∀ (i : Nat) (slots : List UserStorage) (acc : List (Cipher × RegisteredUser))
      (cs : List (Cipher × RegisteredUser)) (slots' : List UserStorage),
      drainSlots us i slots acc = some (Sum.inr (cs, slots')) →
      slots'.length = slots.length ∧ cs.length = acc.length + us.length ∧
        (us ≠ [] → i + us.length ≤ slots.length) := by
  induction us with
  | nil =>
    intro i slots acc cs slots' h
    simp only [drainSlots, Option.some.injEq, Sum.inr.injEq, Prod.mk.injEq] at h
    obtain ⟨hacc, hsl⟩ := h
    subst hacc
    subst hsl
    exact ⟨rfl, by simp, fun hc => absurd rfl hc⟩
  | cons u rest ih =>
    intro i slots acc cs slots' h
    simp only [drainSlots] at h
    cases hslot : slots.get? i with
    | none => rw [hslot] at h; cases h
    | some st =>
      rw [hslot] at h
      have hilt : i < slots.length := by
        rw [List.get?_eq_getElem?] at hslot
        rw [List.getElem?_eq_some] at hslot
        exact hslot.1
      cases st with
      | Empty => cases h
      | CipherSks c k =>
        obtain ⟨hl, hcs, _⟩ := ih (i + 1) (slots.set i (UserStorage.DecryptionShare none))
          (acc ++ [(c, u)]) cs slots' h
        refine ⟨by simpa using hl, by simp at hcs; simp [hcs]; omega, ?_⟩
        intro _
        rcases List.eq_nil_or_concat rest with hrest | _
        · subst hrest
          simpa using hilt
        · have hboundrec : (i + 1) + rest.length ≤ (slots.set i (UserStorage.DecryptionShare none)).length := by
            apply (ih (i + 1) (slots.set i (UserStorage.DecryptionShare none))
              (acc ++ [(c, u)]) cs slots' h).2.2
            rename_i hx
            obtain ⟨l2, b, rfl⟩ := hx
            simp
          simp only [List.length_set] at hboundrec
          simp only [List.length_cons]
          omega
      | DecryptionShare ds => cases h

/-- Invariant over reachable server states: the slot vector keeps its initial
fixed length `TOTAL_USERS`; a handler never returns while the status is
`RunningFhe` (the computation is synchronous); the outputs are empty exactly
until the run completes, at which point there are `TOTAL_USERS` of them. -/
def Inv (s : ServerState) : Prop :=
  s.ssUsers.length = TOTAL_USERS ∧
  s.status ≠ ServerStatus.RunningFhe ∧
  (s.status = ServerStatus.Waiting → s.fheOutputs = []) ∧
  (s.status = ServerStatus.CompletedFhe → s.fheOutputs.length = TOTAL_USERS)

lemma inv_initial : Inv initialState := by
  refine ⟨rfl, ?_, fun _ => rfl, ?_⟩
  · intro h
    cases h
  · intro h
    cases h

lemma inv_register (s : ServerState) (name : String) (h : Inv s) : Inv (register name s).2 := by
  obtain ⟨h1, h2, h3, h4⟩ := h
  exact ⟨h1, h2, h3, h4⟩

lemma inv_submit (s s' : ServerState) (sub : CipherSubmission) (r : Resp)
    (hs : submit sub s = some (r, s')) (h : Inv s) : Inv s' := by
  obtain ⟨h1, h2, h3, h4⟩ := h
  unfold submit at hs
  split at hs
  · simp only [Option.some.injEq, Prod.mk.injEq] at hs
    obtain ⟨-, rfl⟩ := hs
    exact ⟨h1, h2, h3, h4⟩
  · cases hget : s.ssUsers.get? sub.user_id with
    | none => rw [hget] at hs; cases hs
    | some st =>
      rw [hget] at hs
      cases hget2 : s.users.get? sub.user_id with
      | none => rw [hget2] at hs; cases hs
      | some u =>
        rw [hget2] at hs
        simp only [Option.some.injEq, Prod.mk.injEq] at hs
        obtain ⟨-, rfl⟩ := hs
        exact ⟨by simpa using h1, h2, h3, h4⟩

lemma inv_shares (s s' : ServerState) (sub : DecryptionShareSubmission) (r : Resp)
    (hs : submit_decryption_shares sub s = some (r, s')) (h : Inv s) : Inv s' := by
  obtain ⟨h1, h2, h3, h4⟩ := h
  unfold submit_decryption_shares at hs
  cases hget : s.ssUsers.get? sub.user_id with
  | none => rw [hget] at hs; cases hs
  | some st =>
    rw [hget] at hs
    cases st with
    | Empty =>
      simp only [Option.some.injEq, Prod.mk.injEq] at hs
      obtain ⟨-, rfl⟩ := hs
      exact ⟨h1, h2, h3, h4⟩
    | CipherSks c k =>
      simp only [Option.some.injEq, Prod.mk.injEq] at hs
      obtain ⟨-, rfl⟩ := hs
      exact ⟨h1, h2, h3, h4⟩
    | DecryptionShare ds =>
      cases hget2 : s.users.get? sub.user_id with
      | none => rw [hget2] at hs; cases hs
      | some u =>
        rw [hget2] at hs
        simp only [Option.some.injEq, Prod.mk.injEq] at hs
        obtain ⟨-, rfl⟩ := hs
        exact ⟨by simpa using h1, h2, h3, h4⟩

lemma inv_run (s s' : ServerState) (r : Resp)
    (hs : run s = some (r, s')) (h : Inv s) : Inv s' := by
  obtain ⟨h1, h2, h3, h4⟩ := h
  unfold run at hs
  cases hst : s.status with
  | RunningFhe => exact absurd hst h2
  | CompletedFhe =>
    rw [hst] at hs
    simp only [Option.some.injEq, Prod.mk.injEq] at hs
    obtain ⟨-, rfl⟩ := hs
    exact ⟨h1, h2, h3, h4⟩
  | Waiting =>
    rw [hst] at hs
    simp only at hs
    split at hs
    · simp only [Option.some.injEq, Prod.mk.injEq] at hs
      obtain ⟨-, rfl⟩ := hs
      refine ⟨h1, ?_, fun _ => h3 hst, ?_⟩
      · intro hc
        cases hc
      · intro hc
        cases hc
    · rename_i hge
      cases hdrain : drainSlots s.users 0 s.ssUsers [] with
      | none => rw [hdrain] at hs; cases hs
      | some res =>
        rw [hdrain] at hs
        cases res with
        | inl p =>
          obtain ⟨uid, slots1⟩ := p
          simp only [Option.some.injEq, Prod.mk.injEq] at hs
          obtain ⟨-, rfl⟩ := hs
          refine ⟨?_, ?_, fun _ => h3 hst, ?_⟩
          · simpa [drainSlots_inl_length s.users 0 s.ssUsers [] uid slots1 hdrain] using h1
          · intro hc
            cases hc
          · intro hc
            cases hc
        | inr p =>
          obtain ⟨ciphers, slots1⟩ := p
          dsimp only at hs
          cases heval : evaluate_circuit ciphers with
          | none => rw [heval] at hs; cases hs
          | some outs =>
            rw [heval] at hs
            simp only [Option.some.injEq, Prod.mk.injEq] at hs
            obtain ⟨-, rfl⟩ := hs
            obtain ⟨hl, hcs, hbound⟩ := drainSlots_inr_facts s.users 0 s.ssUsers [] ciphers slots1 hdrain
            have husers : s.users.length = TOTAL_USERS := by
              have hne : s.users ≠ [] := by
                intro hc
                rw [hc] at hge
                simp [TOTAL_USERS] at hge
              have := hbound hne
              omega
            have houts : outs.length = TOTAL_USERS := by
              have hlen2 := evaluate_circuit_length ciphers outs heval
              have hcs2 : ciphers.length = s.users.length := by simpa using hcs
              rw [hlen2, hcs2, husers]
            have hslots : slots1.length = TOTAL_USERS := by rw [hl]; exact h1
            exact ⟨hslots, fun hc => ServerStatus.noConfusion hc,
              fun hc => ServerStatus.noConfusion hc, fun _ => houts⟩

lemma reachable_inv (s : ServerState) (h : Reachable s) : Inv s := by
  induction h with
  | init => exact inv_initial
  | step_register s name _ ih => exact inv_register s name ih
  | step_submit s s' sub r _ hstep ih => exact inv_submit s s' sub r hstep ih
  | step_run s s' r _ hstep ih => exact inv_run s s' r hstep ih
  | step_shares s s' sub r _ hstep ih => exact inv_shares s s' sub r hstep ih

/-- Claim C4: in every reachable state whose status is not `CompletedFhe`,
`get_fhe_output` (the `/fhe_output` endpoint) fails with the
output-not-ready error; in `CompletedFhe` it always succeeds and returns
exactly `TOTAL_USERS` ciphertexts, one per participant, indexed by user
id. -/
theorem C4_outputs_gate (s : ServerState) (h : Reachable s) :
    (s.status ≠ ServerStatus.CompletedFhe →
      get_fhe_output s = Except.error Resp.err_output_not_ready) ∧
    (s.status = ServerStatus.CompletedFhe →
      ∃ outs, get_fhe_output s = Except.ok outs ∧ outs.length = TOTAL_USERS) := by
  obtain ⟨h1, h2, h3, h4⟩ := reachable_inv s h
  constructor
  · intro hne
    have hw : s.status = ServerStatus.Waiting := by
      cases hst : s.status with
      | Waiting => rfl
      | RunningFhe => exact absurd hst h2
      | CompletedFhe => exact absurd hst hne
    have hout : s.fheOutputs = [] := h3 hw
    unfold get_fhe_output
    rw [hout]
    rfl
  · intro hc
    have hlen : s.fheOutputs.length = TOTAL_USERS := h4 hc
    refine ⟨s.fheOutputs, ?_, hlen⟩
    unfold get_fhe_output
    have hne : s.fheOutputs ≠ [] := by
      intro hnil
      rw [hnil] at hlen
      simp [TOTAL_USERS] at hlen
    rw [if_neg (by simpa [List.isEmpty_iff] using hne)]

/-- Witness for C4 at the initial (reachable, `Waiting`) state. -/
theorem C4_outputs_gate_witness :
    (initialState.status ≠ ServerStatus.CompletedFhe →
      get_fhe_output initialState = Except.error Resp.err_output_not_ready) ∧
    (initialState.status = ServerStatus.CompletedFhe →
      ∃ outs, get_fhe_output initialState = Except.ok outs ∧ outs.length = TOTAL_USERS) :=
  C4_outputs_gate initialState Reachable.init

def rBarry : RegisteredUser := { id := 0, name := uBarryName, status := UserStatus.IDAcquired }
def rJustin : RegisteredUser := { id := 1, name := uJustinName, status := UserStatus.IDAcquired }
def rBrian : RegisteredUser := { id := 2, name := uBrianName, status := UserStatus.IDAcquired }

/-- The state after the three demo registrations, built by the actual
`register` calls from `initialState`: three users with `IDAcquired` status,
the three slots still `Empty`, no outputs, status `Waiting`. -/
def sReg3 : ServerState :=
  (register uBrianName (register uJustinName (register uBarryName initialState).2).2).2

def subBarry : CipherSubmission := { user_id := 0, cipher_text := [0, 2, 4], sks := () }
def subJustin : CipherSubmission := { user_id := 1, cipher_text := [1, 0, 1], sks := () }
def subBrian : CipherSubmission := { user_id := 2, cipher_text := [1, 1, 0], sks := () }

def afterSub1 : Option (Resp × ServerState) := submit subBarry sReg3
def afterSub2 : Option (Resp × ServerState) := afterSub1.bind (fun p => submit subJustin p.2)
def afterSub3 : Option (Resp × ServerState) := afterSub2.bind (fun p => submit subBrian p.2)

/-- The state after the first demo submission. -/
def sSub1 : ServerState :=
  { users := [uBarry, rJustin, rBrian]
    ssUsers := [UserStorage.CipherSks [0, 2, 4] (), UserStorage.Empty, UserStorage.Empty]
    fheOutputs := []
    status := ServerStatus.Waiting }

/-- The state with all three demo ciphers submitted. -/
def sFull : ServerState :=
  { users := [uBarry, uJustin, uBrian]
    ssUsers := [UserStorage.CipherSks [0, 2, 4] (), UserStorage.CipherSks [1, 0, 1] (),
      UserStorage.CipherSks [1, 1, 0] ()]
    fheOutputs := []
    status := ServerStatus.Waiting }

/-- The state after a successful `run` on `sFull`. -/
def sDone : ServerState :=
  { users := [uBarry, uJustin, uBrian]
    ssUsers := [UserStorage.DecryptionShare none, UserStorage.DecryptionShare none,
      UserStorage.DecryptionShare none]
    fheOutputs := [252, 1, 3]
    status := ServerStatus.CompletedFhe }

/-- A sequence of `submit` requests processed in order, propagating a panic
(`none`) and threading the state; used to state properties over every
submission order. -/
def submitSeq : List CipherSubmission → ServerState → Option ServerState
  | [], s => some s
  | sub :: rest, s => (submit sub s).bind (fun p => submitSeq rest p.2)

/-- Counterexample to Claim C2 as stated: in the code the cipher submissions
never change the phase.  After the three registrations, the statuses after
the first, the second and the third `submit` are all still `Waiting`;
before the third submission user 2's slot is still `Empty` and after it
every slot holds a cipher — so the third call is exactly the one that fills
the last empty slot, and it performs no transition (the `ServerStatus` of
src/server.rs has no `ReadyForRunning` constructor at all).  The reversed
submission order likewise ends with status `Waiting`. -/
theorem C2_cex_no_transition :
    afterSub1.map (fun p => p.2.status) = some ServerStatus.Waiting ∧
    afterSub2.map (fun p => p.2.status) = some ServerStatus.Waiting ∧
    afterSub2.map (fun p => p.2.ssUsers.get? 2) = some (some UserStorage.Empty) ∧
    afterSub3.map (fun p => p.2.status) = some ServerStatus.Waiting ∧
    afterSub3.map (fun p => p.2.ssUsers) = some sFull.ssUsers ∧
    (submitSeq [subBrian, subJustin, subBarry] sReg3).map (fun s => s.status) =
      some ServerStatus.Waiting :=
  ⟨rfl, rfl, rfl, rfl, rfl, rfl⟩

lemma submit_preserves_status (sub : CipherSubmission) (s : ServerState) (r : Resp)
    (s' : ServerState) (hs : submit sub s = some (r, s')) : s'.status = s.status := by
  unfold submit at hs
  split at hs
  · simp only [Option.some.injEq, Prod.mk.injEq] at hs
    obtain ⟨-, rfl⟩ := hs
    rfl
  · cases hget : s.ssUsers.get? sub.user_id with
    | none => rw [hget] at hs; cases hs
    | some st =>
      rw [hget] at hs
      cases hget2 : s.users.get? sub.user_id with
      | none => rw [hget2] at hs; cases hs
      | some u =>
        rw [hget2] at hs
        simp only [Option.some.injEq, Prod.mk.injEq] at hs
        obtain ⟨-, rfl⟩ := hs
        rfl

/-- Claim C2 (amended): cipher submissions never change the phase — for
every sequence of `submit` calls, in any order (so for every permutation of
the participants), a completed sequence leaves the status exactly as it
was, whether it is a partial set or the one whose last call fills the last
empty slot; and the code's `ServerStatus` has no `ReadyForRunning` value at
all (its only statuses are `Waiting`, `RunningFhe` and `CompletedFhe`), so
no such transition can exist. -/
theorem C2_submit_never_transitions :
    (∀ (subs : List CipherSubmission) (s s' : ServerState),
      submitSeq subs s = some s' → s'.status = s.status) ∧
    (∀ st : ServerStatus, st = ServerStatus.Waiting ∨ st = ServerStatus.RunningFhe ∨
      st = ServerStatus.CompletedFhe) := by
  constructor
  · intro subs
    induction subs with
    | nil =>
      intro s s' h
      simp only [submitSeq, Option.some.injEq] at h
      rw [← h]
    | cons sub rest ih =>
      intro s s' h
      simp only [submitSeq] at h
      cases hsub : submit sub s with
      | none => rw [hsub] at h; cases h
      | some p =>
        obtain ⟨r, s2⟩ := p
        rw [hsub] at h
        simp only [Option.some_bind] at h
        rw [ih s2 s' h, submit_preserves_status sub s r s2 hsub]
  · intro st
    cases st with
    | Waiting => exact Or.inl rfl
    | RunningFhe => exact Or.inr (Or.inl rfl)
    | CompletedFhe => exact Or.inr (Or.inr rfl)

/-- Witness for the amended C2: the full demo submission sequence (the last
call filling the last empty slot) preserves the status, and the status
`RunningFhe` is one of the three values of the status type. -/
theorem C2_submit_never_transitions_witness :
    sFull.status = sReg3.status ∧
    (ServerStatus.RunningFhe = ServerStatus.Waiting ∨
      ServerStatus.RunningFhe = ServerStatus.RunningFhe ∨
      ServerStatus.RunningFhe = ServerStatus.CompletedFhe) :=
  ⟨C2_submit_never_transitions.1 [subBarry, subJustin, subBrian] sReg3 sFull rfl,
   C2_submit_never_transitions.2 ServerStatus.RunningFhe⟩

/-- Counterexample to Claim C3 as stated: the `run` call that triggers the
homomorphic computation does not dispatch it to a background worker and
return with the work in flight — the very same call performs the key
aggregation and circuit evaluation synchronously, installs the outputs and
returns with status already `CompletedFhe`. -/
theorem C3_cex_synchronous_run :
    run sFull = some (Resp.ok_fhe_complete, sDone) ∧
    sDone.status = ServerStatus.CompletedFhe ∧
    sDone.fheOutputs = [252, 1, 3] :=
  ⟨rfl, rfl, rfl⟩

/-- Claim C3 (amended): `run` executes the homomorphic work synchronously on
the request path: a call made in `Waiting` either rolls the status back to
`Waiting` leaving the outputs untouched, or completes the whole computation
within the call, returning `ok_fhe_complete` with status `CompletedFhe` and
one output per registered user already installed; it never returns with a
computation in flight. -/
theorem C3_run_synchronous (s : ServerState) (r : Resp) (s' : ServerState)
    (hst : s.status = ServerStatus.Waiting) (hs : run s = some (r, s')) :
    (s'.status = ServerStatus.Waiting ∧ s'.fheOutputs = s.fheOutputs) ∨
    (r = Resp.ok_fhe_complete ∧ s'.status = ServerStatus.CompletedFhe ∧
      s'.fheOutputs.length = s.users.length) := by
  unfold run at hs
  rw [hst] at hs
  simp only at hs
  split at hs
  · simp only [Option.some.injEq, Prod.mk.injEq] at hs
    obtain ⟨-, rfl⟩ := hs
    exact Or.inl ⟨rfl, rfl⟩
  · cases hdrain : drainSlots s.users 0 s.ssUsers [] with
    | none => rw [hdrain] at hs; cases hs
    | some res =>
      rw [hdrain] at hs
      cases res with
      | inl p =>
        obtain ⟨uid, slots1⟩ := p
        simp only [Option.some.injEq, Prod.mk.injEq] at hs
        obtain ⟨-, rfl⟩ := hs
        exact Or.inl ⟨rfl, rfl⟩
      | inr p =>
        obtain ⟨ciphers, slots1⟩ := p
        dsimp only at hs
        cases heval : evaluate_circuit ciphers with
        | none => rw [heval] at hs; cases hs
        | some outs =>
          rw [heval] at hs
          simp only [Option.some.injEq, Prod.mk.injEq] at hs
          obtain ⟨hr, rfl⟩ := hs
          refine Or.inr ⟨hr.symm, rfl, ?_⟩
          have hlen2 := evaluate_circuit_length ciphers outs heval
          have hcs : ciphers.length = s.users.length := by
            simpa using (drainSlots_inr_facts s.users 0 s.ssUsers [] ciphers slots1 hdrain).2.1
          simpa [hcs] using hlen2

/-- Witness for the amended C3 at the fully-submitted demo state: the run
call completes synchronously. -/
theorem C3_run_synchronous_witness :
    (sDone.status = ServerStatus.Waiting ∧ sDone.fheOutputs = sFull.fheOutputs) ∨
    (Resp.ok_fhe_complete = Resp.ok_fhe_complete ∧ sDone.status = ServerStatus.CompletedFhe ∧
      sDone.fheOutputs.length = sFull.users.length) :=
  C3_run_synchronous sFull Resp.ok_fhe_complete sDone rfl rfl

def nmDave : String := "Dave"

/-- Counterexample to Claim C5 as stated: in the `CompletedFhe` state —
registration long "concluded" in any reasonable sense — `register` still
succeeds, assigns the next id and appends a participant; the code has no
`conclude_registration` operation and no `WrongPhase` error at all. -/
theorem C5_cex_register_after_completion :
    sDone.status = ServerStatus.CompletedFhe ∧
    (register nmDave sDone).1.user_id = 3 ∧
    (register nmDave sDone).2.users.length = sDone.users.length + 1 :=
  ⟨rfl, rfl, rfl⟩

/-- Claim C5 (amended): `register` performs no phase check and succeeds in
every phase: it returns the next dense id, appends exactly one participant
with that id and status `IDAcquired`, preserves all previously registered
participants, and leaves the phase, slots and outputs untouched. -/
theorem C5_register_unconditional (name : String) (s : ServerState) :
    (register name s).1.user_id = s.users.length ∧
    (register name s).1.name = name ∧
    (register name s).2.users.length = s.users.length + 1 ∧
    (register name s).2.status = s.status ∧
    (register name s).2.ssUsers = s.ssUsers ∧
    (register name s).2.fheOutputs = s.fheOutputs ∧
    (register name s).2.users.get? s.users.length =
      some { id := s.users.length, name := name, status := UserStatus.IDAcquired } ∧
    ∀ i, i < s.users.length → (register name s).2.users.get? i = s.users.get? i := by
  refine ⟨rfl, rfl, by simp [register], rfl, rfl, rfl, ?_, ?_⟩
  · show (s.users ++ [({ id := s.users.length, name := name, status := UserStatus.IDAcquired } : RegisteredUser)]).get?
      s.users.length = _
    rw [List.get?_eq_getElem?]
    rw [List.getElem?_append_right (Nat.le_refl _)]
    simp
  · intro i hi
    show (s.users ++ [({ id := s.users.length, name := name, status := UserStatus.IDAcquired } : RegisteredUser)]).get?
      i = s.users.get? i
    rw [List.get?_eq_getElem?, List.get?_eq_getElem?]
    exact List.getElem?_append_left hi

/-- Witness for the amended C5: registering a fourth participant in the
completed demo state. -/
theorem C5_register_unconditional_witness :
    (register nmDave sDone).1.user_id = sDone.users.length ∧
    (register nmDave sDone).1.name = nmDave ∧
    (register nmDave sDone).2.users.length = sDone.users.length + 1 ∧
    (register nmDave sDone).2.status = sDone.status ∧
    (register nmDave sDone).2.ssUsers = sDone.ssUsers ∧
    (register nmDave sDone).2.fheOutputs = sDone.fheOutputs ∧
    (register nmDave sDone).2.users.get? sDone.users.length =
      some { id := sDone.users.length, name := nmDave, status := UserStatus.IDAcquired } ∧
    ∀ i, i < sDone.users.length → (register nmDave sDone).2.users.get? i = sDone.users.get? i :=
  C5_register_unconditional nmDave sDone

/-- The demo state with the status forced to `RunningFhe` (in the concurrent
server this is the status observed while a `run` call is in flight). -/
def sRunning : ServerState :=
  { users := [uBarry, uJustin, uBrian]
    ssUsers := [UserStorage.CipherSks [0, 2, 4] (), UserStorage.CipherSks [1, 0, 1] (),
      UserStorage.CipherSks [1, 1, 0] ()]
    fheOutputs := []
    status := ServerStatus.RunningFhe }

/-- Counterexample to Claim C6 as stated: while the status is `RunningFhe`,
`run` does not return the current phase — it returns the error response
"Fhe computation already running" (`ok = false`); no response of this
endpoint carries a phase at all. -/
theorem C6_cex_error_while_running :
    sRunning.status = ServerStatus.RunningFhe ∧
    run sRunning = some (Resp.err_run_in_progress, sRunning) ∧
    Resp.isOk Resp.err_run_in_progress = false :=
  ⟨rfl, rfl, rfl⟩

/-- Claim C6 (amended): calling `run` repeatedly while the status is
`RunningFhe` never launches a second homomorphic computation — the state is
returned completely unchanged — but each such call answers with the
`err_run_in_progress` error response rather than the current phase. -/
theorem C6_run_idempotent_while_running (s : ServerState)
    (h : s.status = ServerStatus.RunningFhe) :
    run s = some (Resp.err_run_in_progress, s) := by
  unfold run
  rw [h]

/-- Witness for the amended C6 at the `RunningFhe` demo state. -/
theorem C6_run_idempotent_while_running_witness :
    run sRunning = some (Resp.err_run_in_progress, sRunning) :=
  C6_run_idempotent_while_running sRunning rfl

lemma get?_set_same (l : List UserStorage) (i : Nat) (v : UserStorage) (h : i < l.length) :
    (l.set i v).get? i = some v := by
  rw [List.get?_eq_getElem?]
  simp [List.getElem?_set, h]

lemma get?_set_other (l : List UserStorage) (i j : Nat) (v : UserStorage) (h : i ≠ j) :
    (l.set i v).get? j = l.get? j := by
  rw [List.get?_eq_getElem?, List.get?_eq_getElem?]
  exact List.getElem?_set_ne h

lemma drainSlots_first_missing (us : List RegisteredUser) :
    ∀ (i m : Nat) (slots : List UserStorage) (acc : List (Cipher × RegisteredUser)),
      m < us.length →
      (∀ k, k < m → ∃ c sk, slots.get? (i + k) = some (UserStorage.CipherSks c sk)) →
      (∀ st, slots.get? (i + m) = some st → ∀ c sk, st ≠ UserStorage.CipherSks c sk) →
      i + m < slots.length →
      ∃ slots', drainSlots us i slots acc = some (Sum.inl (i + m, slots')) ∧
        slots'.length = slots.length ∧
        (∀ k, k < m → slots'.get? (i + k) = some (UserStorage.DecryptionShare none)) ∧
        (∀ j, j < i ∨ i + m ≤ j → slots'.get? j = slots.get? j) := by
  induction us with
  | nil =>
    intro i m slots acc hm _ _ _
    simp at hm
  | cons u rest ih =>
    intro i m slots acc hm hk hmiss hlt
    cases m with
    | zero =>
      have hi : i < slots.length := by simpa using hlt
      have hget : slots.get? i = some (slots.getD i UserStorage.Empty) :=
        get?_eq_some_getD slots i UserStorage.Empty hi
      have hne := hmiss (slots.getD i UserStorage.Empty) (by simpa using hget)
      refine ⟨slots, ?_, rfl, by omega, fun j _ => rfl⟩
      simp only [drainSlots, hget]
      cases hst : slots.getD i UserStorage.Empty with
      | Empty => simp
      | CipherSks c sk => exact absurd rfl (by rw [hst] at hne; exact hne c sk)
      | DecryptionShare ds => simp
    | succ m' =>
      obtain ⟨c, sk, hc⟩ := hk 0 (Nat.succ_pos m')
      rw [Nat.add_zero] at hc
      have hstep : drainSlots (u :: rest) i slots acc =
          drainSlots rest (i + 1) (slots.set i (UserStorage.DecryptionShare none))
            (acc ++ [(c, u)]) := by
        simp only [drainSlots, hc]
      have hm' : m' < rest.length := by simpa using hm
      have hk' : ∀ k, k < m' → ∃ c2 sk2,
          (slots.set i (UserStorage.DecryptionShare none)).get? ((i + 1) + k) =
            some (UserStorage.CipherSks c2 sk2) := by
        intro k hklt
        obtain ⟨c2, sk2, hc2⟩ := hk (k + 1) (by omega)
        refine ⟨c2, sk2, ?_⟩
        rw [get?_set_other slots i ((i + 1) + k) _ (by omega)]
        have heq : i + (k + 1) = (i + 1) + k := by omega
        rw [← heq]
        exact hc2
      have hmiss' : ∀ st, (slots.set i (UserStorage.DecryptionShare none)).get? ((i + 1) + m') =
          some st → ∀ c2 sk2, st ≠ UserStorage.CipherSks c2 sk2 := by
        intro st hst
        rw [get?_set_other slots i ((i + 1) + m') _ (by omega)] at hst
        have heq : (i + 1) + m' = i + (m' + 1) := by omega
        rw [heq] at hst
        exact hmiss st hst
      have hlt' : (i + 1) + m' < (slots.set i (UserStorage.DecryptionShare none)).length := by
        rw [List.length_set]
        omega
      obtain ⟨slots', hdr, hlen, hconv, hpres⟩ :=
        ih (i + 1) m' (slots.set i (UserStorage.DecryptionShare none)) (acc ++ [(c, u)])
          hm' hk' hmiss' hlt'
      have heqm : (i + 1) + m' = i + (m' + 1) := by omega
      rw [heqm] at hdr
      refine ⟨slots', hstep ▸ hdr, by simpa using hlen, ?_, ?_⟩
      · intro k hklt
        cases k with
        | zero =>
          rw [Nat.add_zero]
          have := hpres i (Or.inl (by omega))
          rw [this, get?_set_same slots i _ (by omega)]
        | succ k' =>
          have heq : i + (k' + 1) = (i + 1) + k' := by omega
          rw [heq]
          exact hconv k' (by omega)
      · intro j hj
        rcases hj with hj | hj
        · have := hpres j (Or.inl (by omega))
          rw [this, get?_set_other slots i j _ (by omega)]
        · have := hpres j (Or.inr (by omega))
          rw [this, get?_set_other slots i j _ (by omega)]

lemma run_missing_submission (s : ServerState) (j : Nat)
    (hst : s.status = ServerStatus.Waiting)
    (hge : TOTAL_USERS ≤ s.users.length)
    (hj : j < s.users.length)
    (hjs : j < s.ssUsers.length)
    (hfull : ∀ k, k < j → ∃ c sk, s.ssUsers.get? k = some (UserStorage.CipherSks c sk))
    (hmiss : ∀ st, s.ssUsers.get? j = some st → ∀ c sk, st ≠ UserStorage.CipherSks c sk) :
    ∃ slots', run s = some (Resp.err_missing_submission j,
        { s with ssUsers := slots', status := ServerStatus.Waiting }) ∧
      slots'.length = s.ssUsers.length ∧
      (∀ k, k < j → slots'.get? k = some (UserStorage.DecryptionShare none)) ∧
      (∀ k, j ≤ k → slots'.get? k = s.ssUsers.get? k) := by
  obtain ⟨slots', hdr, hlen, hconv, hpres⟩ :=
    drainSlots_first_missing s.users 0 j s.ssUsers []
      hj (fun k hk => by simpa using hfull k hk) (by simpa using hmiss) (by simpa using hjs)
  rw [Nat.zero_add] at hdr
  refine ⟨slots', ?_, hlen, fun k hk => by simpa using hconv k hk,
    fun k hk => hpres k (Or.inr (by omega))⟩
  unfold run
  rw [hst]
  simp only
  rw [if_neg (by omega), hdr]

/-- Claim C7: if `run` is triggered in the input-accepting phase (`Waiting`)
with enough registered users but some participant's slot not in the
cipher-and-key-share state, it reports the missing-submission error naming
the first such user and rolls the phase back to `Waiting`, so participants
can resubmit and the system is not left stuck in a running state. -/
theorem C7_missing_submission_rolls_back (s : ServerState) (j : Nat)
    (hst : s.status = ServerStatus.Waiting)
    (hge : TOTAL_USERS ≤ s.users.length)
    (hj : j < s.users.length)
    (hjs : j < s.ssUsers.length)
    (hfull : ∀ k, k < j → ∃ c sk, s.ssUsers.get? k = some (UserStorage.CipherSks c sk))
    (hmiss : ∀ st, s.ssUsers.get? j = some st → ∀ c sk, st ≠ UserStorage.CipherSks c sk) :
    ∃ s', run s = some (Resp.err_missing_submission j, s') ∧
      s'.status = ServerStatus.Waiting := by
  obtain ⟨slots', hrun, -, -, -⟩ := run_missing_submission s j hst hge hj hjs hfull hmiss
  exact ⟨_, hrun, rfl⟩

/-- The demo state in which Justin's slot is still `Empty` while Barry's and
Brian's ciphers are in. -/
def sMix : ServerState :=
  { users := [uBarry, rJustin, uBrian]
    ssUsers := [UserStorage.CipherSks [0, 2, 4] (), UserStorage.Empty,
      UserStorage.CipherSks [1, 1, 0] ()]
    fheOutputs := []
    status := ServerStatus.Waiting }

/-- The state left behind by the failed `run` on `sMix`: Barry's slot was
already drained to `DecryptionShare(None)`, Brian's was not. -/
def sMixAfter : ServerState :=
  { users := [uBarry, rJustin, uBrian]
    ssUsers := [UserStorage.DecryptionShare none, UserStorage.Empty,
      UserStorage.CipherSks [1, 1, 0] ()]
    fheOutputs := []
    status := ServerStatus.Waiting }

/-- Witness for C7 on `sMix`: `run` fails naming user 1 and the phase is
rolled back to `Waiting`. -/
theorem C7_missing_submission_rolls_back_witness :
    ∃ s', run sMix = some (Resp.err_missing_submission 1, s') ∧
      s'.status = ServerStatus.Waiting :=
  C7_missing_submission_rolls_back sMix 1 rfl (by decide) (by decide) (by decide)
    (fun k hk => by
      have hk0 : k = 0 := by omega
      subst hk0
      exact ⟨[0, 2, 4], (), rfl⟩)
    (fun st hst c sk => by
      have : st = UserStorage.Empty := by
        have : some UserStorage.Empty = some st := hst
        exact (Option.some.injEq _ _ ▸ this).symm
      subst this
      simp)

/-- Counterexample to Claim C8 as stated: (a) the failed `run` on `sMix`
converts Barry's slot to `DecryptionShare(None)` but leaves Brian's as
`CipherAndKeyShare` — the replacement happened for a strict subset of the
slots; (b) `submit` then moves Barry's drained slot backward from
`DecryptionShares(None)` to `CipherAndKeyShare`. -/
theorem C8_cex_partial_drain_and_backward_move :
    run sMix = some (Resp.err_missing_submission 1, sMixAfter) ∧
    sMixAfter.ssUsers.get? 0 = some (UserStorage.DecryptionShare none) ∧
    sMixAfter.ssUsers.get? 2 = some (UserStorage.CipherSks [1, 1, 0] ()) ∧
    (submit subBarry sMixAfter).map (fun p => p.2.ssUsers.get? 0) =
      some (some (UserStorage.CipherSks [0, 2, 4] ())) :=
  ⟨rfl, rfl, rfl, rfl⟩

/-- Claim C8 (amended): the `CipherAndKeyShare → DecryptionShares`
replacement is per-slot sequential, not atomic: when `run` hits the first
missing slot `j`, exactly the slots before `j` have already been converted
to `DecryptionShares(None)` while every slot from `j` on keeps its previous
content, and the phase rolls back with that partial conversion in place;
moreover a slot can also move backward, since a successful `submit`
unconditionally overwrites the slot — whatever its state — with
`CipherAndKeyShare`. -/
theorem C8_slot_transitions_not_atomic :
    (∀ (s : ServerState) (j : Nat),
      s.status = ServerStatus.Waiting →
      TOTAL_USERS ≤ s.users.length →
      j < s.users.length →
      j < s.ssUsers.length →
      (∀ k, k < j → ∃ c sk, s.ssUsers.get? k = some (UserStorage.CipherSks c sk)) →
      (∀ st, s.ssUsers.get? j = some st → ∀ c sk, st ≠ UserStorage.CipherSks c sk) →
      ∃ slots', run s = some (Resp.err_missing_submission j,
          { s with ssUsers := slots', status := ServerStatus.Waiting }) ∧
        slots'.length = s.ssUsers.length ∧
        (∀ k, k < j → slots'.get? k = some (UserStorage.DecryptionShare none)) ∧
        (∀ k, j ≤ k → slots'.get? k = s.ssUsers.get? k)) ∧
    (∀ (sub : CipherSubmission) (s s' : ServerState),
      submit sub s = some (Resp.ok_user sub.user_id, s') →
      s'.ssUsers.get? sub.user_id = some (UserStorage.CipherSks sub.cipher_text sub.sks)) := by
  constructor
  · intro s j hst hge hj hjs hfull hmiss
    exact run_missing_submission s j hst hge hj hjs hfull hmiss
  · intro sub s s' hs
    unfold submit at hs
    split at hs
    · simp at hs
    · rename_i hlt
      cases hget : s.ssUsers.get? sub.user_id with
      | none => rw [hget] at hs; cases hs
      | some st =>
        rw [hget] at hs
        cases hget2 : s.users.get? sub.user_id with
        | none => rw [hget2] at hs; cases hs
        | some u =>
          rw [hget2] at hs
          simp only [Option.some.injEq, Prod.mk.injEq] at hs
          obtain ⟨-, rfl⟩ := hs
          have hrange : sub.user_id < s.ssUsers.length := by
            rw [List.get?_eq_getElem?] at hget
            rw [List.getElem?_eq_some] at hget
            exact hget.1
          exact get?_set_same s.ssUsers sub.user_id _ hrange

/-- Witness for the amended C8: the partial drain on `sMix` and the backward
overwrite of Barry's drained slot. -/
theorem C8_slot_transitions_not_atomic_witness :
    (∃ slots', run sMix = some (Resp.err_missing_submission 1,
        { sMix with ssUsers := slots', status := ServerStatus.Waiting }) ∧
      slots'.length = sMix.ssUsers.length ∧
      (∀ k, k < 1 → slots'.get? k = some (UserStorage.DecryptionShare none)) ∧
      (∀ k, 1 ≤ k → slots'.get? k = sMix.ssUsers.get? k)) ∧
    sSub1.ssUsers.get? 0 = some (UserStorage.CipherSks [0, 2, 4] ()) :=
  ⟨C8_slot_transitions_not_atomic.1 sMix 1 rfl (by decide) (by decide) (by decide)
    (fun k hk => by
      have hk0 : k = 0 := by omega
      subst hk0
      exact ⟨[0, 2, 4], (), rfl⟩)
    (fun st hst c sk => by
      have hstq : st = UserStorage.Empty := by
        have : some UserStorage.Empty = some st := hst
        exact (Option.some.injEq _ _ ▸ this).symm
      subst hstq
      simp),
   C8_slot_transitions_not_atomic.2 subBarry sReg3 sSub1 rfl⟩

/-- Claim C9: `get_decryption_share` fails with the output-not-ready error
when the user's slot has not reached the decryption-share state, fails with
the share-not-found error naming the output and the user when the slot has
reached that state but the user has not submitted, and returns the stored
share (at any in-range output index) once the user has submitted. -/
theorem C9_get_decryption_share_cases (s : ServerState) (oid uid : Nat) (st : UserStorage)
    (hget : s.ssUsers.get? uid = some st) :
    ((st = UserStorage.Empty ∨ ∃ c sk, st = UserStorage.CipherSks c sk) →
      get_decryption_share oid uid s = some (Except.error Resp.err_output_not_ready)) ∧
    (st = UserStorage.DecryptionShare none →
      get_decryption_share oid uid s =
        some (Except.error (Resp.err_decryption_share_not_found oid uid))) ∧
    (∀ shares sh, st = UserStorage.DecryptionShare (some shares) → shares.get? oid = some sh →
      get_decryption_share oid uid s = some (Except.ok sh)) := by
  refine ⟨?_, ?_, ?_⟩
  · intro h
    rcases h with h | ⟨c, sk, h⟩ <;> subst h <;>
      simp only [get_decryption_share, hget]
  · intro h
    subst h
    simp only [get_decryption_share, hget]
  · intro shares sh h hsh
    subst h
    simp only [get_decryption_share, hget, hsh]

/-- The demo state after evaluation in which Barry has submitted decryption
shares, Justin has not, and Brian's slot (hypothetically) never reached the
decryption-share state. -/
def sShares : ServerState :=
  { users := [uBarry, uJustin, uBrian]
    ssUsers := [UserStorage.DecryptionShare (some [[7], [8], [9]]),
      UserStorage.DecryptionShare none, UserStorage.Empty]
    fheOutputs := [252, 1, 3]
    status := ServerStatus.CompletedFhe }

/-- Witness for C9 exercising all three cases on `sShares`. -/
theorem C9_get_decryption_share_cases_witness :
    get_decryption_share 1 0 sShares = some (Except.ok [8]) ∧
    get_decryption_share 0 1 sShares =
      some (Except.error (Resp.err_decryption_share_not_found 0 1)) ∧
    get_decryption_share 0 2 sShares = some (Except.error Resp.err_output_not_ready) :=
  ⟨(C9_get_decryption_share_cases sShares 1 0 _ rfl).2.2 [[7], [8], [9]] [8] rfl rfl,
   (C9_get_decryption_share_cases sShares 0 1 _ rfl).2.1 rfl,
   (C9_get_decryption_share_cases sShares 0 2 _ rfl).1 (Or.inl rfl)⟩

/-- The state after four registrations: `register` accepts a fourth user even
though the slot vector was fixed at `TOTAL_USERS = 3` entries at startup. -/
def s4regs : ServerState :=
  (register nmDave (register uBrianName (register uJustinName
    (register uBarryName initialState).2).2).2).2

/-- Claim C10 (code-bug evidence): the public interface is not total.  After
four registrations, a `submit` or `submit_decryption_shares` from the
legitimately registered `user_id = 3` indexes `ss.users[3]` in the
three-slot vector and panics (modelled by `none`), and
`get_decryption_share` with an `output_id` beyond a submitted share vector
panics on `decryption_shares[fhe_output_id]` — instead of the typed error
responses the specification requires of every request. -/
theorem C10_interface_panics :
    s4regs.users.length = 4 ∧
    s4regs.ssUsers.length = TOTAL_USERS ∧
    submit { user_id := 3, cipher_text := [1, 2, 3], sks := () } s4regs = none ∧
    submit_decryption_shares { user_id := 3, decryption_shares := [[1]] } s4regs = none ∧
    get_decryption_share 5 0 sShares = none :=
  ⟨rfl, rfl, rfl, rfl, rfl⟩

end KarmaCalc
